import Mathlib

/-!
Shallow embedding of the `devtest` ring buffer (`ringbuffer.pyx`, stub
`devtest/ringbuffer.pyi`).

The extension type owns a block of `_size` bytes and two `size_t` cursors,
`_head` (write cursor) and `_tail` (read cursor).  All cursor arithmetic in
the source is `size_t` arithmetic (modulo `2 ^ 64` on the 64-bit target)
followed by masking with `_size - 1`.  Machine words are modelled as `Nat`
with the wraparound written out explicitly; the byte block is a `List Nat`.
-/

/-- Modulus of `size_t` arithmetic on the 64-bit target. -/
def W : Nat := 2 ^ 64

/-- The value of the `size_t` expression `size - 1` (wraps when `size = 0`). -/
def mask (size : Nat) : Nat := (size + W - 1) % W

/-- Conversion of a C `int` value to `size_t` (reduction modulo `2 ^ 64`),
as performed by a cast or by the usual arithmetic conversions when an `int`
meets a `size_t` in a comparison or a sum. -/
def toSizeT (x : Int) : Nat := (x % (W : Int)).toNat

/-- Two's-complement bit pattern of a C `int` (32 bits). -/
def intBits (x : Int) : Nat := (x % ((2 : Int) ^ 32)).toNat

/-- Source helper `_count(head, tail, size)`:
`(head - tail) & (size - 1)` in `size_t` arithmetic. -/
def _count (head tail size : Nat) : Nat :=
  ((head + W - tail) % W) &&& mask size

/-- Source helper `_count_to_end(head, tail, size)`:
`end = size - tail; n = (head + end) & (size - 1); return n if n < end else end`. -/
def _count_to_end (head tail size : Nat) : Nat :=
  let e := (size + W - tail) % W
  let n := ((head + e) % W) &&& mask size
  if n < e then n else e

/-- Source helper `_space(head, tail, size) = _count(tail, head + 1, size)`. -/
def _space (head tail size : Nat) : Nat :=
  _count tail ((head + 1) % W) size

/-- Source helper `_space_to_end(head, tail, size)`:
`end = size - 1 - head; n = (end + tail) & (size - 1);
return n if n <= end else end + 1`. -/
def _space_to_end (head tail size : Nat) : Nat :=
  let e := (mask size + W - head) % W
  let n := ((e + tail) % W) &&& mask size
  if n ≤ e then n else (e + 1) % W

/-- State of the `RingBuffer` extension type: `_size`, the owned byte block
`_buf` (length `_size`), write cursor `_head` and read cursor `_tail`. -/
structure RingBuffer where
  size : Nat
  buf : List Nat
  head : Nat
  tail : Nat
deriving DecidableEq

/-- Errors the modelled methods can surface.  `valueError` is the
constructor's "Size must be a positive power of 2" (the spec's
`InvalidCapacity`); `indexError` is `__getitem__`'s "index out of range of
current buffer size." (the spec's `IndexOutOfRange`); `overflowError` is
raised by Cython's argument conversion when a Python integer does not fit
the declared C `int` parameter.  `MemoryError` (`AllocationFailure`) is not
modelled: allocation always succeeds here. -/
inductive Err where
  | overflowError
  | valueError
  | indexError
deriving DecidableEq

namespace RingBuffer

/-- Constructor `__cinit__(self, int size=65536)`.

The source checks `size & (size - 1) != 0` on the C `int` argument and
raises `ValueError` when the check fires; otherwise it allocates and
zero-fills `size` bytes (after casting `size` to `size_t`) and zeroes both
cursors.  The argument conversion to C `int` is modelled by the range
guard.  For `size = -2^31` the C expression `size - 1` overflows a signed
`int`, which is undefined behaviour; the model excludes that single input
by treating it like the conversion failure. -/
def cinit (size : Int) : Except Err RingBuffer :=
  if size < -(2 ^ 31 : Int) ∨ (2 ^ 31 : Int) ≤ size then .error .overflowError
  else if size = -(2 ^ 31 : Int) then .error .overflowError
  else if intBits size &&& intBits (size - 1) ≠ 0 then .error .valueError
  else
    let usize := toSizeT size
    .ok { size := usize, buf := List.replicate usize 0, head := 0, tail := 0 }

/-- Method `clear(self)`: `memset(self._buf, 0, self._size)` and reset both
cursors to zero. -/
def clear (rb : RingBuffer) : RingBuffer :=
  { rb with buf := List.replicate rb.size 0, head := 0, tail := 0 }

/-- Effect of `memcpy(buf + pos, chunk, chunk.length)` on the byte block:
set the bytes at positions `pos, pos+1, ...` to the bytes of `chunk`. -/
def storeBytes (buf : List Nat) (pos : Nat) (chunk : List Nat) : List Nat :=
  match chunk with
  | [] => buf
  | b :: rest => storeBytes (buf.set pos b) (pos + 1) rest

/-- The `while 1` loop of `write`.  Each pass computes
`spc2e = _space_to_end(...)`, clamps it to the remaining input length,
breaks when it is zero, otherwise copies that many leading bytes of the
remaining input to `_buf + _head`, advances `_head` by the amount masked
with `_size - 1`, and accumulates the count written.

The C loop consumes at least one input byte per non-break pass, so it makes
at most `data.length + 1` passes; `fuel` bounds the pass count and is
always given as `data.length + 1` by `write`, which provably never
exhausts it. -/
def write_loop (fuel : Nat) (rb : RingBuffer) (data : List Nat) : Nat × RingBuffer :=
  match fuel with
  | 0 => (0, rb)
  | fuel + 1 =>
    let spc2e0 := _space_to_end rb.head rb.tail rb.size
    let spc2e := if data.length < spc2e0 then data.length else spc2e0
    if spc2e = 0 then (0, rb)
    else
      let rb1 : RingBuffer := { rb with
        buf := storeBytes rb.buf rb.head (data.take spc2e),
        head := ((rb.head + spc2e) % W) &&& mask rb.size }
      let rest := write_loop fuel rb1 (data.drop spc2e)
      (spc2e + rest.1, rest.2)

/-- Method `write(self, bytes data)`: run the copy loop over the input
bytes; return the number of bytes actually written and the new state. -/
def write (rb : RingBuffer) (data : List Nat) : Nat × RingBuffer :=
  write_loop (data.length + 1) rb data

/-- The `while amt > 0` loop of `read`.  Each pass computes
`read_amt = _count_to_end(...)`, takes `r = min amt read_amt`, copies `r`
bytes from `_buf + _tail` to the output, and advances `_tail` by `r` masked
with `_size - 1`.

The C loop consumes at least one requested byte per pass whenever
`read_amt > 0`; the `r = 0` early return below never fires for a state
with `tail < size` and `amt` at most the used count (the C loop would spin
forever there), and `fuel = amt + 1` as passed by `read` provably never
runs out. -/
def read_loop (fuel : Nat) (rb : RingBuffer) (amt : Nat) : List Nat × RingBuffer :=
  match fuel with
  | 0 => ([], rb)
  | fuel + 1 =>
    if amt = 0 then ([], rb)
    else
      let read_amt := _count_to_end rb.head rb.tail rb.size
      let r := if amt ≤ read_amt then amt else read_amt
      if r = 0 then ([], rb)
      else
        let chunk := (List.range r).map fun i => rb.buf.getD (rb.tail + i) 0
        let rb1 : RingBuffer := { rb with tail := ((rb.tail + r) % W) &&& mask rb.size }
        let rest := read_loop fuel rb1 (amt - r)
        (chunk ++ rest.1, rest.2)

/-- Body of method `read(self, int amt=-1)`, after the argument has been
converted to a C `int`: clamp the request with
`if amt < 0 or amt > r: amt = r` (where `r` is the used count), return the
empty sequence when the clamped amount is not positive, otherwise run the
copy loop. -/
def read_body (rb : RingBuffer) (amt : Int) : List Nat × RingBuffer :=
  let r := _count rb.head rb.tail rb.size
  let a : Int := if amt < 0 ∨ (r : Int) < amt then (r : Int) else amt
  if a ≤ 0 then ([], rb)
  else read_loop (a.toNat + 1) rb a.toNat

/-- Method `read(self, int amt=-1)`: Cython first converts the Python
integer argument to the declared C `int`, raising `OverflowError` when it
does not fit (modelled by the range guard, as in `cinit`); only then does
the method body run. -/
def read (rb : RingBuffer) (amt : Int) : Except Err (List Nat × RingBuffer) :=
  if amt < -(2 ^ 31 : Int) ∨ (2 ^ 31 : Int) ≤ amt then .error .overflowError
  else .ok (read_body rb amt)

/-- Property `freespace`: `_space(self._head, self._tail, self._size)`. -/
def freespace (rb : RingBuffer) : Nat :=
  _space rb.head rb.tail rb.size

/-- Method `__len__(self)`: `_count(self._head, self._tail, self._size)`. -/
def len (rb : RingBuffer) : Nat :=
  _count rb.head rb.tail rb.size

/-- Property `buffer`: a copy of the whole `_size`-byte storage block. -/
def buffer (rb : RingBuffer) : List Nat :=
  rb.buf.take rb.size

/-- Method `__nonzero__(self)`: `self._head == self._tail`. -/
def nonzero (rb : RingBuffer) : Bool :=
  rb.head == rb.tail

/-- Method `__getitem__(self, int index)`: raise `IndexError` when
`index >= _count(...)` (the C `int` index is converted to `size_t` for the
comparison, so a negative index compares huge and always fails), else
return `self._buf[(self._tail + index) & (self._size - 1)]`. -/
def getitem (rb : RingBuffer) (index : Int) : Except Err Nat :=
  if _count rb.head rb.tail rb.size ≤ toSizeT index then .error .indexError
  else .ok (rb.buf.getD (((rb.tail + toSizeT index) % W) &&& mask rb.size) 0)

/-- The logical content of the buffer: the not-yet-read bytes in FIFO
order, byte `i` sitting at physical position `(tail + i) mod size`. -/
def content (rb : RingBuffer) : List Nat :=
  (List.range (len rb)).map fun i => rb.buf.getD ((rb.tail + i) % rb.size) 0

/-- The number of bytes `read` actually consumes: the request clamped to
the used count, a negative request meaning everything available. -/
def readAmount (rb : RingBuffer) (amt : Int) : Nat :=
  if amt < 0 then len rb else min amt.toNat (len rb)

/-- Well-formedness of a buffer state: positive power-of-two size (phrased
as a positive proper divisor of the `size_t` modulus, which keeps the
predicate decidable), cursors inside the block, block of the right
length. -/
def Valid (rb : RingBuffer) : Prop :=
  0 < rb.size ∧ rb.size ∣ W ∧ rb.size < W ∧
    rb.head < rb.size ∧ rb.tail < rb.size ∧ rb.buf.length = rb.size

instance (rb : RingBuffer) : Decidable (Valid rb) := by
  unfold Valid; infer_instance

/-- States reachable by constructing a buffer and then performing any
finite sequence of `write`, `read` and `clear` calls. -/
inductive Reachable : RingBuffer → Prop where
  | init (size : Int) (rb : RingBuffer) : cinit size = .ok rb → Reachable rb
  | write (rb : RingBuffer) (data : List Nat) : Reachable rb → Reachable (write rb data).2
  | read (rb : RingBuffer) (amt : Int) (out : List Nat) (rb2 : RingBuffer) :
      Reachable rb → read rb amt = .ok (out, rb2) → Reachable rb2
  | clear (rb : RingBuffer) : Reachable rb → Reachable (clear rb)

end RingBuffer

/-- The Python-visible members the `cdef class RingBuffer` defines in the
implementation (`ringbuffer.pyx`): its special methods, plain methods and
properties.  A `cdef` extension type instance has no instance dictionary,
so any attribute outside this list raises `AttributeError`. -/
def ringBufferMembers : List String :=
  ["__cinit__", "__dealloc__", "clear", "read", "write", "fileno", "close", "flush",
   "freespace", "size", "buffer", "__nonzero__", "__len__", "__getitem__"]

/-- The attributes the repository's own type stub (`devtest/ringbuffer.pyi`)
declares on `RingBuffer` in addition to its methods. -/
def ringBufferStubAttrs : List String :=
  ["size", "buffer", "freespace", "readable", "writable", "seekable"]

/-! Arithmetic bridge: under the well-formedness invariant the `size_t`
expressions of the source reduce to plain modular arithmetic on `size`. -/

theorem W_pos : 0 < W := by norm_num [W]

theorem size_pow_of_dvd {s : Nat} (hd : s ∣ W) : ∃ k, k ≤ 64 ∧ s = 2 ^ k := by
  rw [W] at hd
  obtain ⟨k, hk, rfl⟩ := (Nat.dvd_prime_pow Nat.prime_two).mp hd
  exact ⟨k, hk, rfl⟩

theorem mod_small2 {x s : Nat} (hs : 0 < s) (hx : x < 2 * s) :
    x % s = if x < s then x else x - s := by
  split
  · exact Nat.mod_eq_of_lt (by assumption)
  · rw [Nat.mod_eq_sub_mod (by omega)]
    exact Nat.mod_eq_of_lt (by omega)

theorem mask_eq {s : Nat} (h1 : 0 < s) (h2 : s ≤ W) : mask s = s - 1 := by
  unfold mask
  have h : s + W - 1 = (s - 1) + W := by omega
  rw [h, Nat.add_mod_right]
  exact Nat.mod_eq_of_lt (by have := W_pos; omega)

theorem and_mask {s : Nat} (hd : s ∣ W) (hs : 0 < s) (x : Nat) :
    x &&& mask s = x % s := by
  obtain ⟨k, hk, rfl⟩ := size_pow_of_dvd hd
  rw [mask_eq hs (Nat.le_of_dvd W_pos hd)]
  exact Nat.and_pow_two_sub_one_eq_mod x k

theorem modW_mod {s : Nat} (hd : s ∣ W) (x : Nat) : x % W % s = x % s :=
  Nat.mod_mod_of_dvd x hd

theorem count_eq {s : Nat} (hd : s ∣ W) (hs : 0 < s) (head tail : Nat) (ht : tail ≤ s) :
    _count head tail s = (head + s - tail) % s := by
  unfold _count
  rw [and_mask hd hs, modW_mod hd]
  have hsW : s ≤ W := Nat.le_of_dvd W_pos hd
  have h : head + W - tail = (head + s - tail) + (W - s) := by omega
  obtain ⟨d, hdd⟩ := Nat.dvd_sub' hd (dvd_refl s)
  rw [h, hdd, Nat.add_mul_mod_self_left]

theorem space_eq {s : Nat} (hd : s ∣ W) (hs : 0 < s) (hlt : s < W) (head tail : Nat)
    (hh : head < s) : _space head tail s = (tail + s - (head + 1)) % s := by
  unfold _space
  rw [Nat.mod_eq_of_lt (show head + 1 < W by omega)]
  exact count_eq hd hs tail (head + 1) (by omega)

theorem count_to_end_eq {s : Nat} (hd : s ∣ W) (hs : 0 < s) (hlt : s < W) (head tail : Nat)
    (ht : tail < s) :
    _count_to_end head tail s = min (_count head tail s) (s - tail) := by
  have he : (s + W - tail) % W = s - tail := by
    have h : s + W - tail = (s - tail) + W := by omega
    rw [h, Nat.add_mod_right]
    exact Nat.mod_eq_of_lt (by omega)
  have harg : head + (s - tail) = head + s - tail := by omega
  unfold _count_to_end
  simp only [he, and_mask hd hs, modW_mod hd, harg, count_eq hd hs head tail (le_of_lt ht)]
  rcases Nat.lt_or_ge ((head + s - tail) % s) (s - tail) with h | h
  · rw [if_pos h, Nat.min_eq_left (Nat.le_of_lt h)]
  · rw [if_neg (Nat.not_lt.mpr h), Nat.min_eq_right h]

theorem space_to_end_eq {s : Nat} (hd : s ∣ W) (hs : 0 < s) (hlt : s < W) (head tail : Nat)
    (hh : head < s) :
    _space_to_end head tail s = min (_space head tail s) (s - head) := by
  have he : (mask s + W - head) % W = s - 1 - head := by
    rw [mask_eq hs (le_of_lt hlt)]
    have h : s - 1 + W - head = (s - 1 - head) + W := by omega
    rw [h, Nat.add_mod_right]
    exact Nat.mod_eq_of_lt (by omega)
  have harg : s - 1 - head + tail = tail + s - (head + 1) := by omega
  have hsp := space_eq hd hs hlt head tail hh
  unfold _space_to_end
  simp only [he, and_mask hd hs, modW_mod hd, harg, hsp]
  have hmod : (tail + s - (head + 1)) % s < s := Nat.mod_lt _ hs
  rcases le_or_lt ((tail + s - (head + 1)) % s) (s - 1 - head) with h | h
  · rw [if_pos h, Nat.min_eq_left (by omega)]
  · rw [if_neg (Nat.not_le.mpr h),
      Nat.mod_eq_of_lt (show s - 1 - head + 1 < W by omega),
      Nat.min_eq_right (by omega)]
    omega

theorem count_add_space {s : Nat} (hd : s ∣ W) (hs : 0 < s) (hlt : s < W) (head tail : Nat)
    (hh : head < s) (ht : tail < s) :
    _count head tail s + _space head tail s = s - 1 := by
  rw [count_eq hd hs head tail (le_of_lt ht), space_eq hd hs hlt head tail hh,
    mod_small2 hs (by omega), mod_small2 hs (by omega)]
  split_ifs <;> omega

theorem count_lt {s : Nat} (hd : s ∣ W) (hs : 0 < s) (head tail : Nat) (ht : tail ≤ s) :
    _count head tail s < s := by
  rw [count_eq hd hs head tail ht]
  exact Nat.mod_lt _ hs

theorem count_advance_tail {s : Nat} (hs : 0 < s) {head tail r : Nat}
    (hh : head < s) (ht : tail < s) (hr : r ≤ (head + s - tail) % s) :
    (head + s - (tail + r) % s) % s = (head + s - tail) % s - r := by
  have hcount := mod_small2 hs (show head + s - tail < 2 * s by omega)
  have hrs : r < s := by
    have := Nat.mod_lt (head + s - tail) hs
    omega
  rw [mod_small2 hs (show tail + r < 2 * s by omega)]
  split_ifs with h1
  · rw [mod_small2 hs (show head + s - (tail + r) < 2 * s by omega)]
    rw [hcount] at hr ⊢
    split_ifs at hr ⊢ <;> omega
  · rw [mod_small2 hs (show head + s - (tail + r - s) < 2 * s by omega)]
    rw [hcount] at hr ⊢
    split_ifs at hr ⊢ <;> omega

theorem count_advance_head {s : Nat} (hs : 0 < s) {head tail c : Nat}
    (hh : head < s) (ht : tail < s) (hc : c ≤ (tail + s - (head + 1)) % s) :
    ((head + c) % s + s - tail) % s = (head + s - tail) % s + c := by
  have hspace := mod_small2 hs (show tail + s - (head + 1) < 2 * s by omega)
  have hcs : c < s := by
    have := Nat.mod_lt (tail + s - (head + 1)) hs
    omega
  rw [mod_small2 hs (show head + c < 2 * s by omega)]
  split_ifs with h1
  · rw [mod_small2 hs (show head + c + s - tail < 2 * s by omega),
      mod_small2 hs (show head + s - tail < 2 * s by omega)]
    rw [hspace] at hc
    split_ifs at hc ⊢ <;> omega
  · rw [mod_small2 hs (show head + c - s + s - tail < 2 * s by omega),
      mod_small2 hs (show head + s - tail < 2 * s by omega)]
    rw [hspace] at hc
    split_ifs at hc ⊢ <;> omega

theorem space_advance_head {s : Nat} (hs : 0 < s) {head tail c : Nat}
    (hh : head < s) (ht : tail < s) (hc : c ≤ (tail + s - (head + 1)) % s) :
    (tail + s - ((head + c) % s + 1)) % s = (tail + s - (head + 1)) % s - c := by
  have hspace := mod_small2 hs (show tail + s - (head + 1) < 2 * s by omega)
  have hcs : c < s := by
    have := Nat.mod_lt (tail + s - (head + 1)) hs
    omega
  rw [mod_small2 hs (show head + c < 2 * s by omega)]
  split_ifs with h1
  · rw [mod_small2 hs (show tail + s - (head + c + 1) < 2 * s by omega)]
    rw [hspace] at hc ⊢
    split_ifs at hc ⊢ <;> omega
  · rw [mod_small2 hs (show tail + s - (head + c - s + 1) < 2 * s by omega)]
    rw [hspace] at hc ⊢
    split_ifs at hc ⊢ <;> omega

theorem tail_add_count {s : Nat} (hs : 0 < s) {head tail : Nat} (hh : head < s) (ht : tail < s) :
    (tail + (head + s - tail) % s) % s = head := by
  rw [mod_small2 hs (show head + s - tail < 2 * s by omega)]
  split_ifs with h1
  · rw [mod_small2 hs (show tail + (head + s - tail) < 2 * s by omega)]
    split_ifs <;> omega
  · rw [mod_small2 hs (show tail + (head + s - tail - s) < 2 * s by omega)]
    split_ifs <;> omega

namespace RingBuffer

/-! Lemmas about the byte-block model of `memcpy`. -/

theorem storeBytes_length (chunk : List Nat) : ∀ (buf : List Nat) (pos : Nat),
    (storeBytes buf pos chunk).length = buf.length := by
  induction chunk with
  | nil => intro buf pos; rfl
  | cons b rest ih =>
    intro buf pos
    rw [show storeBytes buf pos (b :: rest) = storeBytes (buf.set pos b) (pos + 1) rest from rfl,
      ih, List.length_set]

theorem storeBytes_getD (chunk : List Nat) : ∀ (buf : List Nat) (pos idx : Nat),
    pos + chunk.length ≤ buf.length →
    (storeBytes buf pos chunk).getD idx 0 =
      if pos ≤ idx ∧ idx < pos + chunk.length then chunk.getD (idx - pos) 0
      else buf.getD idx 0 := by
  induction chunk with
  | nil =>
    intro buf pos idx h
    rw [show storeBytes buf pos [] = buf from rfl,
      if_neg (by simp only [List.length_nil]; omega)]
  | cons b rest ih =>
    intro buf pos idx h
    simp only [List.length_cons] at h
    have hlen : pos < buf.length := by omega
    rw [show storeBytes buf pos (b :: rest) = storeBytes (buf.set pos b) (pos + 1) rest from rfl,
      ih (buf.set pos b) (pos + 1) idx (by rw [List.length_set]; omega)]
    rcases Nat.lt_trichotomy idx pos with hlt | heq | hgt
    · rw [if_neg (by omega), if_neg (by simp only [List.length_cons]; omega)]
      simp only [List.getD_eq_getElem?_getD, List.getElem?_set_ne (by omega : pos ≠ idx)]
    · subst heq
      rw [if_neg (by omega), if_pos (by simp only [List.length_cons]; omega)]
      simp [List.getD_eq_getElem?_getD, List.getElem?_set, hlen]
    · by_cases hub : idx < pos + 1 + rest.length
      · rw [if_pos (by omega), if_pos (by simp only [List.length_cons]; omega)]
        have hidx : idx - pos = (idx - (pos + 1)) + 1 := by omega
        rw [hidx]
        simp only [List.getD_eq_getElem?_getD, List.getElem?_cons_succ]
      · rw [if_neg (by omega), if_neg (by simp only [List.length_cons]; omega)]
        simp only [List.getD_eq_getElem?_getD, List.getElem?_set_ne (by omega : pos ≠ idx)]

/-! Basic facts about the logical content. -/

theorem content_length (rb : RingBuffer) : (content rb).length = len rb := by
  simp [content]

theorem content_getElem (rb : RingBuffer) (i : Nat) (h : i < (content rb).length) :
    (content rb)[i] = rb.buf.getD ((rb.tail + i) % rb.size) 0 := by
  simp [content]

theorem content_getD {rb : RingBuffer} {i : Nat} (h : i < len rb) :
    (content rb).getD i 0 = rb.buf.getD ((rb.tail + i) % rb.size) 0 := by
  rw [List.getD_eq_getElem?_getD,
    List.getElem?_eq_getElem (by rw [content_length]; exact h), Option.getD_some,
    content_getElem]

/-- A contiguous copy of `r` bytes out of the block starting at the read
cursor is the first `r` bytes of the logical content, provided it does not
run past the physical end of the block. -/
theorem chunk_eq_take {rb : RingBuffer} (hv : Valid rb) {r : Nat} (hr1 : r ≤ len rb)
    (hr2 : r ≤ rb.size - rb.tail) :
    (List.range r).map (fun i => rb.buf.getD (rb.tail + i) 0) = (content rb).take r := by
  obtain ⟨hs0, hd, hlt, hh, ht, hb⟩ := hv
  apply List.ext_getElem
  · simp only [List.length_map, List.length_range, List.length_take, content_length]
    omega
  · intro i h1 h2
    simp only [List.length_map, List.length_range] at h1
    rw [List.getElem_take, content_getElem]
    simp only [List.getElem_map, List.getElem_range]
    rw [Nat.mod_eq_of_lt (show rb.tail + i < rb.size by omega)]

/-- Advancing the read cursor by `r` positions drops the first `r` bytes of
the logical content. -/
theorem content_advance_tail {rb : RingBuffer} (hv : Valid rb) {r : Nat} (hr : r ≤ len rb) :
    content { rb with tail := (rb.tail + r) % rb.size } = (content rb).drop r := by
  obtain ⟨hs0, hd, hlt, hh, ht, hb⟩ := hv
  have hrlt : len rb < rb.size := count_lt hd hs0 _ _ (le_of_lt ht)
  have hlen1 : len { rb with tail := (rb.tail + r) % rb.size } = len rb - r := by
    show _count rb.head ((rb.tail + r) % rb.size) rb.size = _
    rw [count_eq hd hs0 _ _ (le_of_lt (Nat.mod_lt _ hs0))]
    have hr2 : r ≤ (rb.head + rb.size - rb.tail) % rb.size := by
      rw [len, count_eq hd hs0 _ _ (le_of_lt ht)] at hr
      exact hr
    rw [count_advance_tail hs0 hh ht hr2, len, count_eq hd hs0 _ _ (le_of_lt ht)]
  apply List.ext_getElem
  · simp only [content_length, hlen1, List.length_drop]
  · intro i h1 h2
    rw [content_getElem, List.getElem_drop, content_getElem]
    show rb.buf.getD (((rb.tail + r) % rb.size + i) % rb.size) 0 = _
    rw [Nat.mod_add_mod, Nat.add_assoc]

/-- Writing a chunk of `c` bytes at the write cursor (not running past the
physical end of the block) appends those bytes to the logical content. -/
theorem content_after_store {rb : RingBuffer} (hv : Valid rb) (data : List Nat) {c : Nat}
    (hc1 : c ≤ data.length) (hc2 : c ≤ freespace rb) (hc3 : c ≤ rb.size - rb.head) :
    content { rb with buf := storeBytes rb.buf rb.head (data.take c),
                      head := ((rb.head + c) % W) &&& mask rb.size } =
      content rb ++ data.take c := by
  obtain ⟨hs0, hd, hlt, hh, ht, hb⟩ := hv
  have hmask : ((rb.head + c) % W) &&& mask rb.size = (rb.head + c) % rb.size := by
    rw [and_mask hd hs0, modW_mod hd]
  have hsp : freespace rb = (rb.tail + rb.size - (rb.head + 1)) % rb.size := by
    rw [freespace, space_eq hd hs0 hlt _ _ hh]
  have hcnt : len rb = (rb.head + rb.size - rb.tail) % rb.size := by
    rw [len, count_eq hd hs0 _ _ (le_of_lt ht)]
  have hsum : len rb + freespace rb = rb.size - 1 := by
    rw [len, freespace]
    exact count_add_space hd hs0 hlt _ _ hh ht
  have htl : (rb.tail + len rb) % rb.size = rb.head := by
    rw [hcnt]
    exact tail_add_count hs0 hh ht
  have hclen : (data.take c).length = c := by
    rw [List.length_take]
    omega
  have hlen1 :
      len { rb with buf := storeBytes rb.buf rb.head (data.take c),
                    head := ((rb.head + c) % W) &&& mask rb.size } = len rb + c := by
    show _count (((rb.head + c) % W) &&& mask rb.size) rb.tail rb.size = _
    rw [hmask, count_eq hd hs0 _ _ (le_of_lt ht),
      count_advance_head hs0 hh ht (hsp ▸ hc2), hcnt]
  apply List.ext_getElem
  · simp only [content_length, hlen1, List.length_append, hclen]
  · intro i h1 h2
    rw [content_getElem]
    show (storeBytes rb.buf rb.head (data.take c)).getD ((rb.tail + i) % rb.size) 0 = _
    rw [storeBytes_getD _ _ _ _ (by rw [hclen, hb]; omega), hclen]
    rw [content_length, hlen1] at h1
    rcases Nat.lt_or_ge i (len rb) with hi | hi
    · have hith := mod_small2 hs0 (show rb.tail + i < 2 * rb.size by omega)
      have hlth := mod_small2 hs0 (show rb.tail + len rb < 2 * rb.size by omega)
      rw [hlth] at htl
      rw [if_neg (by rw [hith]; split_ifs at htl ⊢ <;> omega)]
      rw [List.getElem_append_left (by rw [content_length]; omega), content_getElem]
    · have hJ : (rb.tail + i) % rb.size = rb.head + (i - len rb) := by
        have hsplit : rb.tail + i = rb.tail + len rb + (i - len rb) := by omega
        rw [hsplit, ← Nat.mod_add_mod, htl]
        exact Nat.mod_eq_of_lt (by omega)
      rw [hJ, if_pos (by omega)]
      have hsub : rb.head + (i - len rb) - rb.head = i - len rb := by omega
      rw [hsub, List.getElem_append_right (by rw [content_length]; omega)]
      simp only [content_length]
      rw [List.getD_eq_getElem?_getD,
        List.getElem?_eq_getElem (show i - len rb < (data.take c).length by rw [hclen]; omega),
        Option.getD_some]

theorem len_advance_tail {rb : RingBuffer} (hv : Valid rb) {r : Nat} (hr : r ≤ len rb) :
    len { rb with tail := (rb.tail + r) % rb.size } = len rb - r := by
  obtain ⟨hs0, hd, hlt, hh, ht, hb⟩ := hv
  show _count rb.head ((rb.tail + r) % rb.size) rb.size = _
  rw [count_eq hd hs0 _ _ (le_of_lt (Nat.mod_lt _ hs0))]
  have hr2 : r ≤ (rb.head + rb.size - rb.tail) % rb.size := by
    rw [len, count_eq hd hs0 _ _ (le_of_lt ht)] at hr
    exact hr
  rw [count_advance_tail hs0 hh ht hr2, len, count_eq hd hs0 _ _ (le_of_lt ht)]

theorem len_advance_head {rb : RingBuffer} (hv : Valid rb) (buf2 : List Nat) {c : Nat}
    (hc : c ≤ freespace rb) :
    len { rb with buf := buf2, head := ((rb.head + c) % W) &&& mask rb.size } = len rb + c := by
  obtain ⟨hs0, hd, hlt, hh, ht, hb⟩ := hv
  show _count (((rb.head + c) % W) &&& mask rb.size) rb.tail rb.size = _
  rw [and_mask hd hs0, modW_mod hd, count_eq hd hs0 _ _ (le_of_lt ht)]
  have hc2 : c ≤ (rb.tail + rb.size - (rb.head + 1)) % rb.size := by
    rw [freespace, space_eq hd hs0 hlt _ _ hh] at hc
    exact hc
  rw [count_advance_head hs0 hh ht hc2, len, count_eq hd hs0 _ _ (le_of_lt ht)]

theorem freespace_advance_head {rb : RingBuffer} (hv : Valid rb) (buf2 : List Nat) {c : Nat}
    (hc : c ≤ freespace rb) :
    freespace { rb with buf := buf2, head := ((rb.head + c) % W) &&& mask rb.size }
      = freespace rb - c := by
  obtain ⟨hs0, hd, hlt, hh, ht, hb⟩ := hv
  show _space (((rb.head + c) % W) &&& mask rb.size) rb.tail rb.size = _
  rw [and_mask hd hs0, modW_mod hd, space_eq hd hs0 hlt _ _ (Nat.mod_lt _ hs0)]
  have hc2 : c ≤ (rb.tail + rb.size - (rb.head + 1)) % rb.size := by
    rw [freespace, space_eq hd hs0 hlt _ _ hh] at hc
    exact hc
  rw [space_advance_head hs0 hh ht hc2, freespace, space_eq hd hs0 hlt _ _ hh]

/-! The loops only ever touch their own side of the state. -/

theorem write_loop_frame (fuel : Nat) : ∀ (rb : RingBuffer) (data : List Nat),
    (write_loop fuel rb data).2.size = rb.size ∧ (write_loop fuel rb data).2.tail = rb.tail := by
  induction fuel with
  | zero => intro rb data; exact ⟨rfl, rfl⟩
  | succ fuel ih =>
    intro rb data
    simp only [write_loop]
    repeat' split
    all_goals first | exact ⟨rfl, rfl⟩ | exact ih _ _

theorem read_loop_frame (fuel : Nat) : ∀ (rb : RingBuffer) (amt : Nat),
    (read_loop fuel rb amt).2.size = rb.size ∧ (read_loop fuel rb amt).2.head = rb.head ∧
      (read_loop fuel rb amt).2.buf = rb.buf := by
  induction fuel with
  | zero => intro rb amt; exact ⟨rfl, rfl, rfl⟩
  | succ fuel ih =>
    intro rb amt
    simp only [read_loop]
    repeat' split
    all_goals first | exact ⟨rfl, rfl, rfl⟩ | exact ih _ _

theorem write_frame (rb : RingBuffer) (data : List Nat) :
    (write rb data).2.size = rb.size ∧ (write rb data).2.tail = rb.tail :=
  write_loop_frame _ rb data

/-- Full characterisation of the read loop on a well-formed state: for a
request of at most the used count it returns exactly the first `amt` bytes
of the logical content and advances the read cursor by `amt`. -/
theorem read_loop_spec (fuel : Nat) : ∀ (rb : RingBuffer) (amt : Nat), Valid rb →
    amt ≤ len rb → amt < fuel →
    read_loop fuel rb amt =
      ((content rb).take amt, { rb with tail := (rb.tail + amt) % rb.size }) := by
  induction fuel with
  | zero => intro rb amt hv h1 h2; omega
  | succ fuel ih =>
    intro rb amt hv hle hfuel
    obtain ⟨hs0, hd, hlt, hh, ht, hb⟩ := hv
    by_cases h0 : amt = 0
    · subst h0
      rw [show read_loop (fuel + 1) rb 0 = ([], rb) from rfl, Nat.add_zero,
        Nat.mod_eq_of_lt ht]
      rfl
    · have hlen_lt : len rb < rb.size := count_lt hd hs0 _ _ (le_of_lt ht)
      have hcte : _count_to_end rb.head rb.tail rb.size = min (len rb) (rb.size - rb.tail) := by
        rw [count_to_end_eq hd hs0 hlt _ _ ht, len]
      simp only [read_loop, if_neg h0, hcte]
      set r := if amt ≤ min (len rb) (rb.size - rb.tail) then amt
               else min (len rb) (rb.size - rb.tail) with hrdef
      have hrfacts : 1 ≤ r ∧ r ≤ amt ∧ r ≤ len rb ∧ r ≤ rb.size - rb.tail := by
        rw [hrdef]
        split_ifs <;> omega
      obtain ⟨hr1, hr2, hr3, hr4⟩ := hrfacts
      rw [if_neg (by omega)]
      have hmask2 : ((rb.tail + r) % W) &&& mask rb.size = (rb.tail + r) % rb.size := by
        rw [and_mask hd hs0, modW_mod hd]
      rw [hmask2]
      have hv1 : Valid { rb with tail := (rb.tail + r) % rb.size } :=
        ⟨hs0, hd, hlt, hh, Nat.mod_lt _ hs0, hb⟩
      have hlen1 := len_advance_tail ⟨hs0, hd, hlt, hh, ht, hb⟩ hr3
      rw [ih _ (amt - r) hv1 (by rw [hlen1]; omega) (by omega)]
      rw [chunk_eq_take ⟨hs0, hd, hlt, hh, ht, hb⟩ hr3 hr4]
      rw [content_advance_tail ⟨hs0, hd, hlt, hh, ht, hb⟩ hr3]
      have htake : (content rb).take r ++ ((content rb).drop r).take (amt - r)
          = (content rb).take amt := by
        rw [← List.take_add]
        congr 1
        omega
      have htail : ((rb.tail + r) % rb.size + (amt - r)) % rb.size
          = (rb.tail + amt) % rb.size := by
        rw [Nat.mod_add_mod]
        congr 1
        omega
      rw [htake, htail]

/-- Full characterisation of the write loop on a well-formed state: it
stores the largest prefix of the input that fits the free space, appends it
to the logical content, and advances the write cursor by its length. -/
theorem write_loop_spec (fuel : Nat) : ∀ (rb : RingBuffer) (data : List Nat), Valid rb →
    data.length < fuel →
    (write_loop fuel rb data).1 = min data.length (freespace rb) ∧
    (write_loop fuel rb data).2.size = rb.size ∧
    (write_loop fuel rb data).2.tail = rb.tail ∧
    (write_loop fuel rb data).2.buf.length = rb.buf.length ∧
    (write_loop fuel rb data).2.head
      = (rb.head + min data.length (freespace rb)) % rb.size ∧
    content (write_loop fuel rb data).2
      = content rb ++ data.take (min data.length (freespace rb)) := by
  induction fuel with
  | zero => intro rb data hv h; omega
  | succ fuel ih =>
    intro rb data hv hfuel
    obtain ⟨hs0, hd, hlt, hh, ht, hb⟩ := hv
    have hsp_lt : freespace rb < rb.size := by
      rw [freespace, space_eq hd hs0 hlt _ _ hh]
      exact Nat.mod_lt _ hs0
    have hste : _space_to_end rb.head rb.tail rb.size
        = min (freespace rb) (rb.size - rb.head) := by
      rw [space_to_end_eq hd hs0 hlt _ _ hh, freespace]
    simp only [write_loop, hste]
    set c := if data.length < min (freespace rb) (rb.size - rb.head) then data.length
             else min (freespace rb) (rb.size - rb.head) with hcdef
    have hcfacts : c ≤ data.length ∧ c ≤ freespace rb ∧ c ≤ rb.size - rb.head ∧
        c = min data.length (min (freespace rb) (rb.size - rb.head)) := by
      rw [hcdef]
      split_ifs <;> omega
    obtain ⟨hcd, hcf, hch, hcm⟩ := hcfacts
    by_cases hc0 : c = 0
    · rw [if_pos hc0]
      have hm0 : min data.length (freespace rb) = 0 := by omega
      refine ⟨by omega, rfl, rfl, rfl, ?_, ?_⟩
      · rw [hm0, Nat.add_zero, Nat.mod_eq_of_lt hh]
      · rw [hm0]
        simp
    · rw [if_neg hc0]
      set rb1 : RingBuffer :=
        { rb with buf := storeBytes rb.buf rb.head (data.take c),
                  head := ((rb.head + c) % W) &&& mask rb.size } with hrb1
      have hv1 : Valid rb1 := by
        refine ⟨hs0, hd, hlt, ?_, ht, ?_⟩
        · show ((rb.head + c) % W) &&& mask rb.size < rb.size
          rw [and_mask hd hs0, modW_mod hd]
          exact Nat.mod_lt _ hs0
        · show (storeBytes rb.buf rb.head (data.take c)).length = rb.size
          rw [storeBytes_length]
          exact hb
      have hsp1 : freespace rb1 = freespace rb - c := by
        rw [hrb1]
        exact freespace_advance_head ⟨hs0, hd, hlt, hh, ht, hb⟩
          (storeBytes rb.buf rb.head (data.take c)) hcf
      obtain ⟨ih1, ih2, ih3, ih4, ih5, ih6⟩ :=
        ih rb1 (data.drop c) hv1 (by rw [List.length_drop]; omega)
      rw [hsp1, List.length_drop] at ih1 ih5 ih6
      have hm : min data.length (freespace rb)
          = c + min (data.length - c) (freespace rb - c) := by omega
      refine ⟨?_, ?_, ?_, ?_, ?_, ?_⟩
      · show c + _ = _
        rw [ih1, hm]
      · show (write_loop fuel _ _).2.size = rb.size
        rw [ih2]
      · show (write_loop fuel _ _).2.tail = rb.tail
        rw [ih3]
      · show (write_loop fuel _ _).2.buf.length = rb.buf.length
        rw [ih4]
        show (storeBytes rb.buf rb.head (data.take c)).length = rb.buf.length
        rw [storeBytes_length]
      · show (write_loop fuel _ _).2.head = _
        rw [ih5]
        show (((rb.head + c) % W &&& mask rb.size) + min (data.length - c) (freespace rb - c))
            % rb.size = _
        rw [and_mask hd hs0, modW_mod hd, Nat.mod_add_mod, hm]
        congr 1
        omega
      · show content (write_loop fuel _ _).2 = _
        have hcs : content rb1 = content rb ++ data.take c := by
          rw [hrb1]
          exact content_after_store ⟨hs0, hd, hlt, hh, ht, hb⟩ data hcd hcf hch
        rw [ih6, hcs, List.append_assoc, ← List.take_add, hm]

theorem read_body_frame (rb : RingBuffer) (amt : Int) :
    (read_body rb amt).2.size = rb.size ∧ (read_body rb amt).2.head = rb.head ∧
      (read_body rb amt).2.buf = rb.buf := by
  simp only [read_body]
  repeat' split
  all_goals first | exact ⟨rfl, rfl, rfl⟩ | exact read_loop_frame _ rb _

/-- Inside the C `int` range the argument conversion succeeds and `read`
is exactly its body. -/
theorem read_in_range (rb : RingBuffer) (amt : Int)
    (hlo : -(2 ^ 31 : Int) ≤ amt) (hhi : amt < (2 ^ 31 : Int)) :
    read rb amt = .ok (read_body rb amt) := by
  rw [read, if_neg (by omega)]

/-- Specification of `write` on a well-formed state: it reports and stores
exactly `min (len data) freespace` leading bytes of the input, appending
them to the logical content and advancing only the write cursor. -/
theorem write_spec (rb : RingBuffer) (data : List Nat) (hv : Valid rb) :
    (write rb data).1 = min data.length (freespace rb) ∧
    (write rb data).2.size = rb.size ∧
    (write rb data).2.tail = rb.tail ∧
    (write rb data).2.buf.length = rb.buf.length ∧
    (write rb data).2.head = (rb.head + min data.length (freespace rb)) % rb.size ∧
    content (write rb data).2 = content rb ++ data.take (min data.length (freespace rb)) :=
  write_loop_spec (data.length + 1) rb data hv (by omega)

/-- Specification of the `read` body on a well-formed state: it returns
the first `readAmount` bytes of the logical content and advances only the
read cursor. -/
theorem read_body_spec (rb : RingBuffer) (amt : Int) (hv : Valid rb) :
    read_body rb amt = ((content rb).take (readAmount rb amt),
      { rb with tail := (rb.tail + readAmount rb amt) % rb.size }) := by
  obtain ⟨hs0, hd, hlt, hh, ht, hb⟩ := hv
  have hla : readAmount rb amt ≤ len rb := by
    rw [readAmount]
    split_ifs <;> omega
  simp only [read_body]
  rw [show _count rb.head rb.tail rb.size = len rb from rfl]
  set a : Int := if amt < 0 ∨ (len rb : Int) < amt then (len rb : Int) else amt with ha
  have haa : a.toNat = readAmount rb amt := by
    rw [ha, readAmount]
    split_ifs with h1 h2 <;> omega
  by_cases hle0 : a ≤ 0
  · rw [if_pos hle0]
    have h0 : readAmount rb amt = 0 := by omega
    rw [h0, Nat.add_zero, Nat.mod_eq_of_lt ht]
    rfl
  · rw [if_neg hle0, haa]
    exact read_loop_spec _ rb _ ⟨hs0, hd, hlt, hh, ht, hb⟩ hla (by omega)

theorem valid_write {rb : RingBuffer} (hv : Valid rb) (data : List Nat) :
    Valid (write rb data).2 := by
  obtain ⟨h1, h2, h3, h4, h5, h6⟩ := write_spec rb data hv
  obtain ⟨hs0, hd, hlt, hh, ht, hb⟩ := hv
  refine ⟨?_, ?_, ?_, ?_, ?_, ?_⟩
  · rw [h2]; exact hs0
  · rw [h2]; exact hd
  · rw [h2]; exact hlt
  · rw [h5, h2]; exact Nat.mod_lt _ hs0
  · rw [h3, h2]; exact ht
  · rw [h4, h2]; exact hb

theorem valid_read_body {rb : RingBuffer} (hv : Valid rb) (amt : Int) :
    Valid (read_body rb amt).2 := by
  have hspec := read_body_spec rb amt hv
  obtain ⟨hs0, hd, hlt, hh, ht, hb⟩ := hv
  rw [hspec]
  exact ⟨hs0, hd, hlt, hh, Nat.mod_lt _ hs0, hb⟩

theorem valid_clear {rb : RingBuffer} (hv : Valid rb) : Valid (clear rb) := by
  obtain ⟨hs0, hd, hlt, hh, ht, hb⟩ := hv
  exact ⟨hs0, hd, hlt, hs0, hs0, by simp [clear]⟩

/-- Bit trick: a positive number whose bitwise AND with its predecessor
vanishes is a power of two. -/
theorem and_pred_pow_two {n : Nat} (h1 : 0 < n) (h2 : n &&& (n - 1) = 0) :
    ∃ k, n = 2 ^ k := by
  refine ⟨n.log2, ?_⟩
  by_contra hne
  have hk1 : 2 ^ n.log2 ≤ n := Nat.log2_self_le (by omega)
  have hk2 : n < 2 ^ (n.log2 + 1) := Nat.lt_log2_self
  rw [Nat.pow_succ] at hk2
  have hbn : n / 2 ^ n.log2 = 1 := Nat.div_eq_of_lt_le (by omega) (by omega)
  have hbn1 : (n - 1) / 2 ^ n.log2 = 1 := Nat.div_eq_of_lt_le (by omega) (by omega)
  have htb : (n &&& (n - 1)).testBit n.log2 = true := by
    rw [Nat.testBit_and, Nat.testBit_to_div_mod, Nat.testBit_to_div_mod, hbn, hbn1]
    rfl
  rw [h2, Nat.zero_testBit] at htb
  exact Bool.false_ne_true htb

/-- A state produced by a successful construction either has the degenerate
size zero (the `size = 0` slip analysed for the capacity claim) or is
well-formed. -/
theorem valid_cinit {size : Int} {rb : RingBuffer} (h : cinit size = .ok rb) :
    rb.size = 0 ∨ Valid rb := by
  simp only [cinit] at h
  split at h
  · exact Except.noConfusion h
  split at h
  · exact Except.noConfusion h
  split at h
  · exact Except.noConfusion h
  rename_i hg1 hg2 hg3
  injection h with h2
  subst h2
  have hand : intBits size &&& intBits (size - 1) = 0 := not_not.mp hg3
  push_neg at hg1
  obtain ⟨hg1a, hg1b⟩ := hg1
  have hW : ((W : Nat) : Int) = 2 ^ 64 := by norm_num [W]
  rcases lt_trichotomy size 0 with hneg | hzero | hpos
  · exfalso
    have hgt : -(2 ^ 31 : Int) < size := lt_of_le_of_ne hg1a (Ne.symm hg2)
    have ha2 : 2 ^ 31 ≤ intBits size ∧ intBits size < 2 ^ 32 := by
      unfold intBits
      omega
    have hb2 : 2 ^ 31 ≤ intBits (size - 1) ∧ intBits (size - 1) < 2 ^ 32 := by
      unfold intBits
      omega
    have hd1 : intBits size / 2 ^ 31 = 1 := Nat.div_eq_of_lt_le (by omega) (by omega)
    have hd2 : intBits (size - 1) / 2 ^ 31 = 1 := Nat.div_eq_of_lt_le (by omega) (by omega)
    have htb : (intBits size &&& intBits (size - 1)).testBit 31 = true := by
      rw [Nat.testBit_and, Nat.testBit_to_div_mod, Nat.testBit_to_div_mod, hd1, hd2]
      rfl
    rw [hand, Nat.zero_testBit] at htb
    exact Bool.false_ne_true htb
  · subst hzero
    left
    decide
  · have hb1 : intBits size = size.toNat := by
      unfold intBits
      omega
    have hb2 : intBits (size - 1) = size.toNat - 1 := by
      unfold intBits
      omega
    rw [hb1, hb2] at hand
    obtain ⟨k, hk⟩ := and_pred_pow_two (by omega) hand
    have hts : toSizeT size = size.toNat := by
      unfold toSizeT
      rw [hW]
      omega
    have hklt : k < 31 := by
      have hlt31 : (2 : Nat) ^ k < 2 ^ 31 := by omega
      exact (Nat.pow_lt_pow_iff_right (by norm_num)).mp hlt31
    right
    refine ⟨?_, ?_, ?_, ?_, ?_, ?_⟩
    · show 0 < toSizeT size
      omega
    · show toSizeT size ∣ W
      rw [hts, hk]
      unfold W
      exact pow_dvd_pow 2 (by omega)
    · show toSizeT size < W
      rw [hts, hk]
      unfold W
      exact (Nat.pow_lt_pow_iff_right (by norm_num)).mpr (by omega)
    · show 0 < toSizeT size
      omega
    · show 0 < toSizeT size
      omega
    · show (List.replicate (toSizeT size) 0).length = toSizeT size
      exact List.length_replicate ..

/-- Every reachable state either carries the degenerate size zero or is
well-formed. -/
theorem reachable_sound {rb : RingBuffer} (h : Reachable rb) : rb.size = 0 ∨ Valid rb := by
  induction h with
  | init size rb0 h0 => exact valid_cinit h0
  | write rb0 data hr ih =>
    rcases ih with h | h
    · left
      rw [(write_frame rb0 data).1]
      exact h
    · right
      exact valid_write h data
  | read rb0 amt out rb2 hr hok ih =>
    have hbody : rb2 = (read_body rb0 amt).2 := by
      simp only [RingBuffer.read] at hok
      split at hok
      · exact Except.noConfusion hok
      · injection hok with hok
        rw [hok]
    rcases ih with h | h
    · left
      rw [hbody, (read_body_frame rb0 amt).1]
      exact h
    · right
      rw [hbody]
      exact valid_read_body h amt
  | clear rb0 hr ih =>
    rcases ih with h | h
    · left
      exact h
    · right
      exact valid_clear h

end RingBuffer

section SanityChecks

open RingBuffer

example : cinit 10 = .error .valueError := rfl
example : cinit 16 = .ok ⟨16, List.replicate 16 0, 0, 0⟩ := rfl
example : cinit 0 = .ok ⟨0, [], 0, 0⟩ := rfl

-- Wraparound scenario from the spec, capacity 8, "ABCDE" then "FGHIJ".
example :
    let rb0 : RingBuffer := ⟨8, List.replicate 8 0, 0, 0⟩
    let w1 := RingBuffer.write rb0 [65, 66, 67, 68, 69]
    let r1 := RingBuffer.read_body w1.2 3
    let w2 := RingBuffer.write r1.2 [70, 71, 72, 73, 74]
    let r2 := RingBuffer.read_body w2.2 (-1)
    w1.1 = 5 ∧ len w1.2 = 5 ∧ freespace w1.2 = 2 ∧
    r1.1 = [65, 66, 67] ∧ len r1.2 = 2 ∧
    w2.1 = 5 ∧ len w2.2 = 7 ∧
    r2.1 = [68, 69, 70, 71, 72, 73, 74] ∧ len r2.2 = 0 := by decide

-- The argument conversion of `read`: out-of-int-range requests raise,
-- in-range requests run the body.
example : RingBuffer.read ⟨8, List.replicate 8 0, 0, 0⟩ (2 ^ 31) = .error .overflowError := rfl
example : RingBuffer.read ⟨8, List.replicate 8 0, 0, 0⟩ (-(2 ^ 31) - 1)
    = .error .overflowError := rfl
example : RingBuffer.read ⟨8, List.replicate 8 0, 0, 0⟩ (-1)
    = .ok ([], ⟨8, List.replicate 8 0, 0, 0⟩) := rfl

-- Truncating write from the spec, capacity 4, "XYZ" then "Q".
example :
    let rb0 : RingBuffer := ⟨4, List.replicate 4 0, 0, 0⟩
    let w1 := RingBuffer.write rb0 [88, 89, 90]
    let w2 := RingBuffer.write w1.2 [81]
    w1.1 = 3 ∧ freespace w1.2 = 0 ∧ w2.1 = 0 ∧ w2.2 = w1.2 := by decide

end SanityChecks

/-! Claim theorems. -/

/-- C1: in every reachable state of a buffer (of positive capacity — the
claim's own cursor formulation presupposes cursors in `[0, capacity)`),
the used count plus the free space equals `capacity - 1`. -/
theorem C1_used_plus_free_invariant (rb : RingBuffer) (h : RingBuffer.Reachable rb)
    (hpos : 0 < rb.size) :
    RingBuffer.len rb + RingBuffer.freespace rb = rb.size - 1 := by
  rcases RingBuffer.reachable_sound h with h0 | hv
  · omega
  · obtain ⟨hs0, hd, hlt, hh, ht, hb⟩ := hv
    rw [RingBuffer.len, RingBuffer.freespace]
    exact count_add_space hd hs0 hlt _ _ hh ht

theorem C1_witness :
    RingBuffer.len ⟨8, List.replicate 8 0, 0, 0⟩ +
      RingBuffer.freespace ⟨8, List.replicate 8 0, 0, 0⟩ = 8 - 1 :=
  C1_used_plus_free_invariant ⟨8, List.replicate 8 0, 0, 0⟩
    (RingBuffer.Reachable.init 8 _ rfl) (by decide)

/-- C2: writing a sequence of at most `capacity - 1` bytes to an empty
well-formed buffer reports the full length, a following `read(-1)` returns
exactly that sequence, and the used count returns to zero. -/
theorem C2_roundtrip (rb : RingBuffer) (data : List Nat) (hv : RingBuffer.Valid rb)
    (hempty : RingBuffer.len rb = 0) (hlen : data.length ≤ rb.size - 1) :
    (RingBuffer.write rb data).1 = data.length ∧
    ∃ rb2, RingBuffer.read (RingBuffer.write rb data).2 (-1) = .ok (data, rb2) ∧
      RingBuffer.len rb2 = 0 := by
  obtain ⟨h1, h2, h3, h4, h5, h6⟩ := RingBuffer.write_spec rb data hv
  obtain ⟨hs0, hd, hlt, hh, ht, hb⟩ := hv
  have hsum : RingBuffer.len rb + RingBuffer.freespace rb = rb.size - 1 := by
    rw [RingBuffer.len, RingBuffer.freespace]
    exact count_add_space hd hs0 hlt _ _ hh ht
  have hmin : min data.length (RingBuffer.freespace rb) = data.length := by omega
  rw [hmin] at h1 h5 h6
  have hcontent0 : RingBuffer.content rb = [] := by
    have hc := RingBuffer.content_length rb
    rw [hempty] at hc
    exact List.eq_nil_of_length_eq_zero hc
  rw [hcontent0, List.nil_append, List.take_length] at h6
  have hw2len : RingBuffer.len (RingBuffer.write rb data).2 = data.length := by
    rw [← RingBuffer.content_length, h6]
  have hv2 : RingBuffer.Valid (RingBuffer.write rb data).2 :=
    RingBuffer.valid_write ⟨hs0, hd, hlt, hh, ht, hb⟩ data
  have hraw := RingBuffer.read_body_spec (RingBuffer.write rb data).2 (-1) hv2
  have hra : RingBuffer.readAmount (RingBuffer.write rb data).2 (-1) = data.length := by
    rw [RingBuffer.readAmount, if_pos (by norm_num), hw2len]
  refine ⟨h1,
    { (RingBuffer.write rb data).2 with
      tail := ((RingBuffer.write rb data).2.tail + data.length)
        % (RingBuffer.write rb data).2.size }, ?_, ?_⟩
  · rw [RingBuffer.read_in_range _ _ (by norm_num) (by norm_num), hraw, hra, h6,
      List.take_length]
  · rw [RingBuffer.len_advance_tail hv2 (le_of_eq hw2len.symm), hw2len]
    omega

theorem C2_witness :
    (RingBuffer.write ⟨8, List.replicate 8 0, 0, 0⟩ [1, 2, 3]).1 = 3 ∧
    ∃ rb2,
      RingBuffer.read (RingBuffer.write ⟨8, List.replicate 8 0, 0, 0⟩ [1, 2, 3]).2 (-1)
        = .ok ([1, 2, 3], rb2) ∧
      RingBuffer.len rb2 = 0 :=
  C2_roundtrip ⟨8, List.replicate 8 0, 0, 0⟩ [1, 2, 3] (by decide) (by decide) (by decide)

/-- C3: on a well-formed state, `write` stores exactly the leading
`min (len data) freespace` bytes of its input (appended to the logical
content), advances the write cursor by that count modulo capacity, leaves
the read cursor and capacity alone, and returns that count; writing an
empty sequence or writing with no free space returns 0 and leaves the
state unchanged.  (The method is modelled as a total function: it raises
nothing.) -/
theorem C3_write_truncates (rb : RingBuffer) (data : List Nat) (hv : RingBuffer.Valid rb) :
    (RingBuffer.write rb data).1 = min data.length (RingBuffer.freespace rb) ∧
    RingBuffer.content (RingBuffer.write rb data).2
      = RingBuffer.content rb ++ data.take (min data.length (RingBuffer.freespace rb)) ∧
    (RingBuffer.write rb data).2.head
      = (rb.head + min data.length (RingBuffer.freespace rb)) % rb.size ∧
    (RingBuffer.write rb data).2.tail = rb.tail ∧
    (RingBuffer.write rb data).2.size = rb.size ∧
    ((data = [] ∨ RingBuffer.freespace rb = 0) → RingBuffer.write rb data = (0, rb)) := by
  obtain ⟨h1, h2, h3, h4, h5, h6⟩ := RingBuffer.write_spec rb data hv
  obtain ⟨hs0, hd, hlt, hh, ht, hb⟩ := hv
  refine ⟨h1, h6, h5, h3, h2, ?_⟩
  intro hz
  have hs2e : _space_to_end rb.head rb.tail rb.size
      = min (RingBuffer.freespace rb) (rb.size - rb.head) := by
    rw [space_to_end_eq hd hs0 hlt _ _ hh, RingBuffer.freespace]
  have hc0 : (if data.length < _space_to_end rb.head rb.tail rb.size
      then data.length else _space_to_end rb.head rb.tail rb.size) = 0 := by
    rcases hz with hz | hz
    · subst hz
      simp only [List.length_nil]
      split_ifs <;> omega
    · rw [hs2e, hz]
      simp only [Nat.zero_min]
      split_ifs <;> omega
  show RingBuffer.write_loop (data.length + 1) rb data = (0, rb)
  simp only [RingBuffer.write_loop]
  rw [hc0, if_pos rfl]

theorem C3_witness :
    (RingBuffer.write ⟨4, List.replicate 4 0, 1, 1⟩ [9, 8, 7, 6, 5]).1 = 3 ∧
    RingBuffer.content (RingBuffer.write ⟨4, List.replicate 4 0, 1, 1⟩ [9, 8, 7, 6, 5]).2
      = [9, 8, 7] := by
  have h := C3_write_truncates ⟨4, List.replicate 4 0, 1, 1⟩ [9, 8, 7, 6, 5] (by decide)
  refine ⟨?_, ?_⟩
  · rw [h.1]
    decide
  · rw [h.2.1]
    decide

/-- C4: on a well-formed state, for any request in the C `int` range (the
declared type of `amt`; Cython raises `OverflowError` outside it, which
the model's range guard mirrors), `read` succeeds and returns the oldest
`readAmount` buffered bytes in FIFO order (everything when the request is
negative, at most the used count otherwise), removes them from the
logical content, advances the read cursor by the count returned modulo
capacity, and touches nothing else; a zero request or an empty buffer
gives an empty result and an unchanged state. -/
theorem C4_read_clamps (rb : RingBuffer) (amt : Int) (hv : RingBuffer.Valid rb)
    (hlo : -(2 ^ 31 : Int) ≤ amt) (hhi : amt < (2 ^ 31 : Int)) :
    RingBuffer.read rb amt = .ok (RingBuffer.read_body rb amt) ∧
    (RingBuffer.read_body rb amt).1
      = (RingBuffer.content rb).take (RingBuffer.readAmount rb amt) ∧
    RingBuffer.content (RingBuffer.read_body rb amt).2
      = (RingBuffer.content rb).drop (RingBuffer.readAmount rb amt) ∧
    RingBuffer.len (RingBuffer.read_body rb amt).2
      = RingBuffer.len rb - RingBuffer.readAmount rb amt ∧
    (RingBuffer.read_body rb amt).2.tail
      = (rb.tail + RingBuffer.readAmount rb amt) % rb.size ∧
    (RingBuffer.read_body rb amt).2.head = rb.head ∧
    (RingBuffer.read_body rb amt).2.size = rb.size ∧
    ((amt = 0 ∨ RingBuffer.len rb = 0) → RingBuffer.read rb amt = .ok ([], rb)) := by
  have hraw := RingBuffer.read_body_spec rb amt hv
  have hla : RingBuffer.readAmount rb amt ≤ RingBuffer.len rb := by
    rw [RingBuffer.readAmount]
    split_ifs <;> omega
  obtain ⟨hs0, hd, hlt, hh, ht, hb⟩ := hv
  have h2nd : (RingBuffer.read_body rb amt).2
      = { rb with tail := (rb.tail + RingBuffer.readAmount rb amt) % rb.size } := by
    rw [hraw]
  refine ⟨RingBuffer.read_in_range rb amt hlo hhi, by rw [hraw], ?_, ?_,
    by rw [h2nd], by rw [h2nd], by rw [h2nd], ?_⟩
  · rw [h2nd]
    exact RingBuffer.content_advance_tail ⟨hs0, hd, hlt, hh, ht, hb⟩ hla
  · rw [h2nd]
    exact RingBuffer.len_advance_tail ⟨hs0, hd, hlt, hh, ht, hb⟩ hla
  · intro hz
    have h0 : RingBuffer.readAmount rb amt = 0 := by
      rw [RingBuffer.readAmount]
      rcases hz with hz | hz <;> split_ifs <;> omega
    rw [RingBuffer.read_in_range rb amt hlo hhi, hraw, h0, Nat.add_zero,
      Nat.mod_eq_of_lt ht]
    rfl

theorem C4_witness :
    RingBuffer.read ⟨8, [10, 11, 12, 13, 14, 15, 16, 17], 3, 5⟩ 4
      = .ok ([15, 16, 17, 10], ⟨8, [10, 11, 12, 13, 14, 15, 16, 17], 3, 1⟩) := by
  have h := C4_read_clamps ⟨8, [10, 11, 12, 13, 14, 15, 16, 17], 3, 5⟩ 4
    (by decide) (by decide) (by decide)
  rw [h.1]
  rfl

/-- C5: the constructor's check `size & (size - 1) != 0` rejects 10 and
accepts 16 (zero-filled storage, both cursors zero), as the claim's
instances say; but it also accepts capacity 0 — `0 & -1 == 0` — although 0
is not a positive power of two (no power of two equals 0), so the claimed
"fails if and only if not a positive power of two" is violated by the code
at capacity 0. -/
theorem C5_capacity_check :
    RingBuffer.cinit 10 = .error .valueError ∧
    RingBuffer.cinit 16 = .ok ⟨16, List.replicate 16 0, 0, 0⟩ ∧
    RingBuffer.cinit 0 = .ok ⟨0, [], 0, 0⟩ ∧
    ∀ k : Nat, (2 : Int) ^ k ≠ 0 :=
  ⟨rfl, rfl, rfl, fun k => pow_ne_zero k (by norm_num)⟩

/-- C6: on a well-formed state, `peek`/`__getitem__` (with an index in the
C `int` range) fails with the index error exactly when the index is
negative or at least the used count, and succeeds otherwise.  The source
compares the converted-to-`size_t` index against the used count, which
makes every negative index compare huge and fail. -/
theorem C6_peek_bounds (rb : RingBuffer) (index : Int) (hv : RingBuffer.Valid rb)
    (h1 : -(2 ^ 31 : Int) ≤ index) (h2 : index < 2 ^ 31) :
    (RingBuffer.getitem rb index = .error .indexError
      ↔ (index < 0 ∨ (RingBuffer.len rb : Int) ≤ index)) ∧
    ((0 ≤ index ∧ index < (RingBuffer.len rb : Int)) →
      ∃ b, RingBuffer.getitem rb index = .ok b) := by
  obtain ⟨hs0, hd, hlt, hh, ht, hb⟩ := hv
  have hlen_lt : RingBuffer.len rb < rb.size := count_lt hd hs0 _ _ (le_of_lt ht)
  have hsize : rb.size ≤ 2 ^ 63 := by
    obtain ⟨k, hk, hks⟩ := size_pow_of_dvd hd
    unfold W at hlt
    rw [hks] at hlt ⊢
    have hklt : k < 64 := (Nat.pow_lt_pow_iff_right (by norm_num)).mp hlt
    exact Nat.pow_le_pow_right (by norm_num) (by omega)
  have hW : ((W : Nat) : Int) = 2 ^ 64 := by norm_num [W]
  have hts : (toSizeT index : Int) = index % 2 ^ 64 := by
    unfold toSizeT
    rw [hW]
    omega
  unfold RingBuffer.getitem
  rw [show _count rb.head rb.tail rb.size = RingBuffer.len rb from rfl]
  split_ifs with hcond
  · refine ⟨⟨fun _ => ?_, fun _ => rfl⟩, fun hin => absurd hcond (by omega)⟩
    omega
  · refine ⟨⟨fun he => absurd he (by simp), fun hor => absurd hcond ?_⟩, fun _ => ⟨_, rfl⟩⟩
    simp only [not_not]
    omega

theorem C6_witness :
    RingBuffer.getitem ⟨8, [1, 2, 3, 0, 0, 0, 0, 0], 3, 0⟩ 3 = .error .indexError ∧
    RingBuffer.getitem ⟨8, [1, 2, 3, 0, 0, 0, 0, 0], 3, 0⟩ (-1) = .error .indexError ∧
    (∃ b, RingBuffer.getitem ⟨8, [1, 2, 3, 0, 0, 0, 0, 0], 3, 0⟩ 2 = .ok b) := by
  refine ⟨?_, ?_, ?_⟩
  · exact (C6_peek_bounds ⟨8, [1, 2, 3, 0, 0, 0, 0, 0], 3, 0⟩ 3
      (by decide) (by decide) (by decide)).1.mpr (Or.inr (by decide))
  · exact (C6_peek_bounds ⟨8, [1, 2, 3, 0, 0, 0, 0, 0], 3, 0⟩ (-1)
      (by decide) (by decide) (by decide)).1.mpr (Or.inl (by decide))
  · exact (C6_peek_bounds ⟨8, [1, 2, 3, 0, 0, 0, 0, 0], 3, 0⟩ 2
      (by decide) (by decide) (by decide)).2 ⟨by decide, by decide⟩

/-- C7: on a well-formed state, an in-range `peek` returns the byte at
logical offset `index` from the read cursor — the `index`-th byte of the
logical content, which is also the `index`-th byte of what `read(-1)`
would return.  The model's `getitem` is a function of the state returning
only the byte (the source method performs no writes), so the state is
untouched by construction. -/
theorem C7_peek_reads_content (rb : RingBuffer) (index : Int) (hv : RingBuffer.Valid rb)
    (h0 : 0 ≤ index) (h1 : index < (RingBuffer.len rb : Int)) :
    RingBuffer.getitem rb index
      = .ok ((RingBuffer.content rb).getD index.toNat 0) ∧
    ∃ out rb2, RingBuffer.read rb (-1) = .ok (out, rb2) ∧
      out.getD index.toNat 0 = (RingBuffer.content rb).getD index.toNat 0 := by
  obtain ⟨hs0, hd, hlt, hh, ht, hb⟩ := hv
  have hlen_lt : RingBuffer.len rb < rb.size := count_lt hd hs0 _ _ (le_of_lt ht)
  have hlt2 : rb.size < 2 ^ 64 := by
    unfold W at hlt
    exact hlt
  have hW : ((W : Nat) : Int) = 2 ^ 64 := by norm_num [W]
  have hts : toSizeT index = index.toNat := by
    unfold toSizeT
    rw [hW]
    omega
  constructor
  · unfold RingBuffer.getitem
    rw [show _count rb.head rb.tail rb.size = RingBuffer.len rb from rfl, hts,
      if_neg (by omega), and_mask hd hs0, modW_mod hd,
      RingBuffer.content_getD (show index.toNat < RingBuffer.len rb by omega)]
  · have hraw := RingBuffer.read_body_spec rb (-1) ⟨hs0, hd, hlt, hh, ht, hb⟩
    have hra : RingBuffer.readAmount rb (-1) = RingBuffer.len rb := by
      rw [RingBuffer.readAmount, if_pos (by norm_num)]
    refine ⟨RingBuffer.content rb,
      { rb with tail := (rb.tail + RingBuffer.len rb) % rb.size }, ?_, rfl⟩
    rw [RingBuffer.read_in_range _ _ (by norm_num) (by norm_num), hraw, hra,
      ← RingBuffer.content_length, List.take_length]

theorem C7_witness :
    RingBuffer.getitem ⟨8, [10, 11, 12, 13, 14, 15, 16, 17], 3, 5⟩ 3 = .ok 10 := by
  have h := C7_peek_reads_content ⟨8, [10, 11, 12, 13, 14, 15, 16, 17], 3, 5⟩ 3
    (by decide) (by decide) (by decide)
  rw [h.1]
  rfl

/-- C8: after `clear` in any reachable state (of positive capacity), the
used count is zero, the free space is `capacity - 1`, both cursors are
zero, the whole storage block reads back as zero bytes, and `peek 0` fails
with the index error. -/
theorem C8_clear_resets (rb : RingBuffer) (h : RingBuffer.Reachable rb) (hpos : 0 < rb.size) :
    RingBuffer.len (RingBuffer.clear rb) = 0 ∧
    RingBuffer.freespace (RingBuffer.clear rb) = rb.size - 1 ∧
    (RingBuffer.clear rb).head = 0 ∧
    (RingBuffer.clear rb).tail = 0 ∧
    RingBuffer.buffer (RingBuffer.clear rb) = List.replicate rb.size 0 ∧
    RingBuffer.getitem (RingBuffer.clear rb) 0 = .error .indexError := by
  rcases RingBuffer.reachable_sound h with h0 | hv
  · omega
  obtain ⟨hs0, hd, hlt, hh, ht, hb⟩ := hv
  have hc0 : _count 0 0 rb.size = 0 := by
    rw [count_eq hd hs0 0 0 (by omega)]
    have he : 0 + rb.size - 0 = rb.size := by omega
    rw [he, Nat.mod_self]
  refine ⟨hc0, ?_, rfl, rfl, ?_, ?_⟩
  · show _space 0 0 rb.size = rb.size - 1
    rw [space_eq hd hs0 hlt 0 0 hs0]
    have he : 0 + rb.size - (0 + 1) = rb.size - 1 := by omega
    rw [he]
    exact Nat.mod_eq_of_lt (by omega)
  · show (List.replicate rb.size (0 : Nat)).take rb.size = List.replicate rb.size 0
    simp
  · show (if _count 0 0 rb.size ≤ toSizeT 0 then Except.error Err.indexError else _)
        = Except.error Err.indexError
    rw [if_pos (by rw [hc0]; exact Nat.zero_le _)]

theorem C8_witness :
    RingBuffer.len
      (RingBuffer.clear (RingBuffer.write ⟨8, List.replicate 8 0, 0, 0⟩ [1, 2, 3]).2) = 0 ∧
    RingBuffer.getitem
      (RingBuffer.clear (RingBuffer.write ⟨8, List.replicate 8 0, 0, 0⟩ [1, 2, 3]).2) 0
      = .error .indexError := by
  have h := C8_clear_resets (RingBuffer.write ⟨8, List.replicate 8 0, 0, 0⟩ [1, 2, 3]).2
    (RingBuffer.Reachable.write _ _ (RingBuffer.Reachable.init 8 _ rfl)) (by decide)
  exact ⟨h.1, h.2.2.2.2.2⟩

/-- C9: the `cdef class RingBuffer` implementation defines no `readable`,
`writable` or `seekable` attribute at all — although the repository's own
type stub declares all three — so a constructed object does not expose the
claimed compatibility flags; accessing them raises `AttributeError`. -/
theorem C9_flags_missing :
    "readable" ∉ ringBufferMembers ∧
    "writable" ∉ ringBufferMembers ∧
    "seekable" ∉ ringBufferMembers ∧
    "readable" ∈ ringBufferStubAttrs ∧
    "writable" ∈ ringBufferStubAttrs ∧
    "seekable" ∈ ringBufferStubAttrs := by
  refine ⟨?_, ?_, ?_, ?_, ?_, ?_⟩ <;> decide

/-- C10: on a well-formed state, the truth value `__nonzero__` computes is
`head == tail`, which holds exactly when the buffer is empty — so the
object is truthy precisely when it holds no unread bytes, the inverse of
the usual container convention. -/
theorem C10_nonzero_means_empty (rb : RingBuffer) (hv : RingBuffer.Valid rb) :
    (RingBuffer.nonzero rb = true ↔ rb.head = rb.tail) ∧
    (RingBuffer.nonzero rb = true ↔ RingBuffer.len rb = 0) := by
  obtain ⟨hs0, hd, hlt, hh, ht, hb⟩ := hv
  have hbeq : RingBuffer.nonzero rb = true ↔ rb.head = rb.tail := by
    rw [RingBuffer.nonzero, beq_iff_eq]
  refine ⟨hbeq, hbeq.trans ?_⟩
  rw [RingBuffer.len, count_eq hd hs0 _ _ (le_of_lt ht)]
  constructor
  · intro he
    rw [he]
    have hx : rb.tail + rb.size - rb.tail = rb.size := by omega
    rw [hx, Nat.mod_self]
  · intro h0
    rw [mod_small2 hs0 (by omega)] at h0
    split_ifs at h0 <;> omega

theorem C10_witness : RingBuffer.nonzero ⟨8, List.replicate 8 0, 2, 2⟩ = true :=
  (C10_nonzero_means_empty ⟨8, List.replicate 8 0, 2, 2⟩ (by decide)).2.mpr (by decide)
